import Mathlib

/-
Verification of the CBOR-style codec of this repository.

The codec lives in a single TypeScript class `CBOR` with two public
operations, `encode` and `decode`, plus private emit/consume helpers.
This file gives a shallow embedding of that class and proves/refutes the
frozen claims about it.

Modelling conventions:
* A byte buffer (`Uint8Array`) is a `List Nat`; elements produced by the
  encoder are always < 256 (a `Uint8Array` stores values mod 2^8, which is
  made explicit with `% 256` wherever the source can overflow a byte).
* An out-of-bounds indexed read `bytes[i]` yields `undefined` in
  JavaScript; we model such reads with `List.get?`.  Reads that every call
  site guards to be in bounds are modelled with `List.getD _ 0` (the
  default is never used, or — in `isTinyUtf8Type` checks — behaves exactly
  like `undefined`, i.e. fails the range test).
* Calling `undefined` as a function (which is what the source does when
  `matchNextItemType` finds no consumer, both at the top of `decode` and
  inside the composite consumers) throws a `TypeError`; we model it as
  `Except.error JSErr.typeError`.
* The decoder's mutual recursion (dispatch → composite consumer →
  dispatch) is embedded with a structural fuel parameter so that all
  definitions compute by kernel reduction.  `JSErr.fuelExhausted` is an
  artefact of that embedding only: the termination theorem for claim C9
  proves it never occurs once the fuel exceeds the number of bytes that
  remain to the right of the cursor, so `decode`, which supplies
  `data.length + 1` units of fuel, behaves exactly like the (always
  terminating) JavaScript recursion.
-/

namespace CBOR

/-- Values the decoder can materialise: JavaScript numbers, strings,
arrays and (insertion-ordered) `Map`s with string keys.  The decoder only
ever produces string map keys because `consumeMapObject` insists the key
is a tiny-utf8 item. -/
inductive JSValue where
  | num (n : Nat)
  | str (s : String)
  | arr (elems : List JSValue)
  | map (entries : List (String × JSValue))

/-- Source type `DecodedDataType = { nextIndex: number, decodedItem: any }`. -/
structure DecodedData where
  nextIndex : Nat
  decodedItem : JSValue

/-- Runtime failure modes of the decoder.  `typeError` is the JavaScript
`TypeError` raised when the source invokes an `undefined` consume
function; `fuelExhausted` is an artefact of the fuel embedding (see the
header comment) and provably unreachable with sufficient fuel. -/
inductive JSErr where
  | typeError
  | fuelExhausted
deriving DecidableEq

/-- Source `toUtf8`: the actual TextDecoder call is commented out and the
function returns `data.join()`, i.e. the decimal representations of the
bytes joined with commas. -/
def toUtf8 (data : List Nat) : String :=
  String.intercalate "," (data.map toString)

/-- Source `isTinyUtf8Type`: byte in `0x60 .. 0x77`. -/
def isTinyUtf8Type (byte : Nat) : Bool :=
  decide (0x60 ≤ byte) && decide (byte ≤ 0x77)

/-- The four consumers the dispatch table of `matchNextItemType` can
select. -/
inductive ConsumerKind where
  | mapObject
  | tinyUtf8String
  | tinyUnsignedInteger
  | smallArray

/-- Source `matchNextItemType`: the decoder's dispatch table, keyed on the
byte at the cursor, in the source's test order.  Any byte outside the four
inline ranges — in particular the escape bytes 0x18/0x19/0x78/0x79 and
0xFF — yields no consumer (`undefined` in the source). -/
def matchNextItemType (byte : Nat) : Option ConsumerKind :=
  if 0xA0 ≤ byte ∧ byte ≤ 0xB7 then some .mapObject
  else if 0x60 ≤ byte ∧ byte ≤ 0x77 then some .tinyUtf8String
  else if byte ≤ 0x17 then some .tinyUnsignedInteger
  else if 0x80 ≤ byte ∧ byte ≤ 0x97 then some .smallArray
  else none

/-- Source `consumeTinyUnsignedInteger`: value is the byte itself, cursor
advances by 1.  Every call site has checked `bytes[idx]` is in bounds and
in `0x00 .. 0x17`, so the `getD` default is never used. -/
def consumeTinyUnsignedInteger (bytes : List Nat) (idx : Nat) : DecodedData :=
  ⟨idx + 1, .num (bytes.getD idx 0)⟩

/-- Source `consumeTinyUtf8String`: length is `bytes[idx] - 0x60`, the
payload is `bytes.slice(idx+1, idx+strLen+1)` (JavaScript `slice` clamps
to the end of the buffer, as `drop`/`take` do), and the string is built by
the `toUtf8` stub.  Every call site has checked `bytes[idx]` is in bounds
and in the text range. -/
def consumeTinyUtf8String (bytes : List Nat) (idx : Nat) : DecodedData :=
  let strLen := bytes.getD idx 0 - 0x60
  ⟨idx + strLen + 1, .str (toUtf8 ((bytes.drop (idx + 1)).take strLen))⟩

/-- JavaScript `Map.prototype.set`: replace in place when the key exists,
otherwise append, preserving insertion order. -/
def mapSet (obj : List (String × JSValue)) (k : String) (v : JSValue) :
    List (String × JSValue) :=
  if obj.any (fun p => p.1 == k) then
    obj.map (fun p => if p.1 == k then (k, v) else p)
  else obj ++ [(k, v)]

/-- The map consumer stores `keyResult.decodedItem` as the map key; that
item always comes from `consumeTinyUtf8String`, hence is a `.str`, so the
default branch is unreachable. -/
def keyString : JSValue → String
  | .str s => s
  | _ => ""

/-- The element loop of source `consumeSmallArray`: dispatch on the byte
at the cursor (crashing with a `TypeError` when no consumer matches,
which includes the cursor being out of bounds), thread the cursor through
`result.nextIndex`, and push each decoded item.  The recursive dispatch
is abstracted as the `consume` argument. -/
def smallArrayLoop (consume : List Nat → Nat → Except JSErr DecodedData)
    (bytes : List Nat) : Nat → Nat → List JSValue → Except JSErr DecodedData
  | 0, nextIdx, obj => .ok ⟨nextIdx, .arr obj.reverse⟩
  | count + 1, nextIdx, obj =>
    match consume bytes nextIdx with
    | .error e => .error e
    | .ok r => smallArrayLoop consume bytes count r.nextIndex (r.decodedItem :: obj)

/-- Source `consumeSmallArray`: element count is `bytes[idx] - 0x80`
(call sites guarantee the byte is in bounds and in `0x80 .. 0x97`), the
loop starts at `idx + 1`, and the final cursor of the loop is returned. -/
def consumeSmallArray (consume : List Nat → Nat → Except JSErr DecodedData)
    (bytes : List Nat) (idx : Nat) : Except JSErr DecodedData :=
  smallArrayLoop consume bytes (bytes.getD idx 0 - 0x80) (idx + 1) []

/-- The pair loop of source `consumeMapObject`: if the byte at the cursor
is not a tiny-utf8 key (an out-of-bounds read behaves like a failed range
test, because `isTinyUtf8Type undefined` is false), it `break`s, returning
the pairs collected so far with no error.  Otherwise it consumes the key,
advances the cursor past the key only, dispatches for the value at that
cursor (crashing with a `TypeError` when nothing matches), stores the pair
with `Map.set`, and — faithfully to the source, which never assigns
`valueResult.nextIndex` — leaves the cursor at the key's end for the next
iteration. -/
def mapObjectLoop (consume : List Nat → Nat → Except JSErr DecodedData)
    (bytes : List Nat) :
    Nat → Nat → List (String × JSValue) → Except JSErr (List (String × JSValue))
  | 0, _, obj => .ok obj
  | count + 1, nextIdx, obj =>
    if isTinyUtf8Type (bytes.getD nextIdx 0) then
      let kr := consumeTinyUtf8String bytes nextIdx
      match consume bytes kr.nextIndex with
      | .error e => .error e
      | .ok vr =>
        mapObjectLoop consume bytes count kr.nextIndex
          (mapSet obj (keyString kr.decodedItem) vr.decodedItem)
    else .ok obj

/-- Source `consumeMapObject`: pair count is `bytes[idx] - 0xA0`, the
loop starts at `idx + 1`, and the returned record is
`{nextIndex: idx + 1, decodedItem: obj}` — the source discards the loop's
final cursor. -/
def consumeMapObject (consume : List Nat → Nat → Except JSErr DecodedData)
    (bytes : List Nat) (idx : Nat) : Except JSErr DecodedData :=
  match mapObjectLoop consume bytes (bytes.getD idx 0 - 0xA0) (idx + 1) [] with
  | .error e => .error e
  | .ok obj => .ok ⟨idx + 1, .map obj⟩

/-- One step of the decoder: read the byte at the cursor (an out-of-bounds
read gives `undefined`), look it up in the dispatch table, and run the
selected consumer; when no consumer matches, the source calls `undefined`
as a function — a `TypeError`. -/
def consumeStep (consume : List Nat → Nat → Except JSErr DecodedData)
    (bytes : List Nat) (idx : Nat) : Except JSErr DecodedData :=
  match bytes.get? idx with
  | none => .error .typeError
  | some b =>
    match matchNextItemType b with
    | none => .error .typeError
    | some .tinyUnsignedInteger => .ok (consumeTinyUnsignedInteger bytes idx)
    | some .tinyUtf8String => .ok (consumeTinyUtf8String bytes idx)
    | some .smallArray => consumeSmallArray consume bytes idx
    | some .mapObject => consumeMapObject consume bytes idx

/-- The tied recursive knot of the consume functions, indexed by fuel
(see the header comment: fuel is an embedding artefact, provably
sufficient at `bytes.length - idx + 1`). -/
def consumeAt : Nat → List Nat → Nat → Except JSErr DecodedData
  | 0, _, _ => .error .fuelExhausted
  | fuel + 1, bytes, idx => consumeStep (fun b i => consumeAt fuel b i) bytes idx

/-- Source `decode`: dispatch on `data[0]` and return only
`result.decodedItem`, discarding `result.nextIndex` — the buffer is never
checked to be fully consumed.  The fuel `data.length + 1` is sufficient by
the termination theorem. -/
def decode (data : List Nat) : Except JSErr JSValue :=
  match consumeAt (data.length + 1) data 0 with
  | .error e => .error e
  | .ok r => .ok r.decodedItem

/-- The values the encoder side can be handed (the `any`-typed entries of
the payload `Map`): strings, integer numbers, non-integer numbers
(`float`), arrays, nested `Map`s, and anything else (`other`, e.g. a
boolean), for which the source's `matchItemType` returns `undefined`. -/
inductive EValue where
  | int (n : Int)
  | float
  | str (s : String)
  | arr (xs : List EValue)
  | map (entries : List (String × EValue))
  | other

/-- Source `emitTypeByteForArray`: `0x80 + value.length`, stored into a
`Uint8Array`, hence reduced mod 256. -/
def emitTypeByteForArray (value : List EValue) : Nat :=
  (0x80 + value.length) % 256

/-- Source `emitTypeByteForMap`: `0xA0 + payload.size`, stored into a
`Uint8Array`, hence reduced mod 256. -/
def emitTypeByteForMap (payload : List (String × EValue)) : Nat :=
  (0xA0 + payload.length) % 256

/-- Source `emitIntegerBytes`: inline byte for 0..23, `0x18` escape for
0..255, big-endian `0x19` escape for 0..65535 (`Math.floor(value/256)` and
`value % 256`), and — for every other integer, negative ones included —
the empty byte array, with no error of any kind. -/
def emitIntegerBytes (value : Int) : List Nat :=
  if 0 ≤ value ∧ value ≤ 23 then [value.toNat]
  else if 0 ≤ value ∧ value ≤ 255 then [0x18, value.toNat]
  else if 0 ≤ value ∧ value ≤ 65535 then [0x19, value.toNat / 256, value.toNat % 256]
  else []

/-- Source `emitFloatingPointBytes`: both of its normalisation loops
terminate for every finite non-integer number (repeated `*10` makes the
mantissa integer-valued once it reaches 2^52, and `<< 8` on an int32
reaches 0 after at most four shifts), and everything they compute is
discarded: the function returns `new Uint8Array([0xFB, ])`, i.e. the
single byte 0xFB, for every input. -/
def emitFloatingPointBytes : List Nat :=
  [0xFB]

/-- Source `emitStringTypeBytes`: inline length byte for ≤ 23, `0x78`
escape for ≤ 255, big-endian `0x79` escape for ≤ 65535
(`(len & 0xFF00) >> 8` equals `len / 256` in that range), and the EMPTY
byte list for longer strings.  `value.length` counts UTF-16 units in the
source and characters here; the two agree on all strings the claims
touch (no supplementary-plane characters). -/
def emitStringTypeBytes (value : String) : List Nat :=
  if value.length ≤ 23 then [0x60 + value.length]
  else if value.length ≤ 255 then [0x78, value.length]
  else if value.length ≤ 65535 then [0x79, value.length / 256, value.length % 256]
  else []

/-- Source `emitStringBytes`: the type bytes followed by one byte per
character, `charCodeAt` truncated to 8 bits by the `Uint8Array` store. -/
def emitStringBytes (value : String) : List Nat :=
  emitStringTypeBytes value ++ value.data.map (fun c => c.toNat % 256)

/-- Source `emitMapBytes`: an unimplemented stub returning the empty byte
array. -/
def emitMapBytes : List Nat :=
  []

mutual
/-- The source's `matchItemType` dispatch (string / integer / other
number / Array / Map, `undefined` otherwise) fused with the call of the
selected emit function: `none` models `matchItemType` returning
`undefined`. -/
def emitValueBytes : EValue → Option (List Nat)
  | .str s => some (emitStringBytes s)
  | .int n => some (emitIntegerBytes n)
  | .float => some emitFloatingPointBytes
  | .arr xs => some (emitArrayLoop xs [emitTypeByteForArray xs])
  | .map _ => some emitMapBytes
  | .other => none

/-- The element loop of source `emitArrayBytes` (whose body is inlined in
the `.arr` case above): on an `undefined` emit function it logs and
`break`s, returning the bytes accumulated so far. -/
def emitArrayLoop : List EValue → List Nat → List Nat
  | [], bytes => bytes
  | v :: rest, bytes =>
    match emitValueBytes v with
    | none => bytes
    | some vb => emitArrayLoop rest (bytes ++ vb)
end

/-- The key/value loop of source `encode`: emit the key's string bytes,
then dispatch on the value — when `matchItemType` returns `undefined` the
source logs and `break`s, returning the bytes accumulated so far, key
bytes included. -/
def encodeLoop : List (String × EValue) → List Nat → List Nat
  | [], bytes => bytes
  | (key, value) :: rest, bytes =>
    let withKey := bytes ++ emitStringBytes key
    match emitValueBytes value with
    | none => withKey
    | some vb => encodeLoop rest (withKey ++ vb)

/-- Source `encode`: the public encoder.  Its parameter type is
`Map<string, any>` — only a string-keyed map can be encoded at the top
level — modelled as the insertion-ordered entry list of that map (a
JavaScript `Map` has pairwise distinct keys).  It emits the map tag byte
and then runs the key/value loop. -/
def encode (payload : List (String × EValue)) : List Nat :=
  encodeLoop payload [emitTypeByteForMap payload]

/-! Well-formedness of wire items.  `Item bytes idx j` says the bytes
from `idx` (inclusive) to `j` (exclusive) form one complete item of the
grammar the decoder dispatches on; `ItemSeq` and `PairSeq` are exact
tilings of a byte range by consecutive items, respectively by key/value
pairs.  These predicates describe the wire format itself (what a
"well-formed first item" is), not the decoder's — buggy — traversal. -/

mutual
inductive Item : List Nat → Nat → Nat → Prop where
  | tiny {bytes : List Nat} {idx n : Nat} :
      bytes.get? idx = some n → n ≤ 0x17 → Item bytes idx (idx + 1)
  | text {bytes : List Nat} {idx n : Nat} :
      bytes.get? idx = some n → 0x60 ≤ n → n ≤ 0x77 →
      idx + (n - 0x60) + 1 ≤ bytes.length →
      Item bytes idx (idx + (n - 0x60) + 1)
  | arr {bytes : List Nat} {idx j n : Nat} :
      bytes.get? idx = some n → 0x80 ≤ n → n ≤ 0x97 →
      ItemSeq bytes (idx + 1) (n - 0x80) j → Item bytes idx j
  | map {bytes : List Nat} {idx j n : Nat} :
      bytes.get? idx = some n → 0xA0 ≤ n → n ≤ 0xB7 →
      PairSeq bytes (idx + 1) (n - 0xA0) j → Item bytes idx j

inductive ItemSeq : List Nat → Nat → Nat → Nat → Prop where
  | nil {bytes : List Nat} {idx : Nat} : ItemSeq bytes idx 0 idx
  | cons {bytes : List Nat} {idx k j c : Nat} :
      Item bytes idx k → ItemSeq bytes k c j → ItemSeq bytes idx (c + 1) j

inductive PairSeq : List Nat → Nat → Nat → Nat → Prop where
  | nil {bytes : List Nat} {idx : Nat} : PairSeq bytes idx 0 idx
  | cons {bytes : List Nat} {idx k j c n : Nat} :
      bytes.get? idx = some n → 0x60 ≤ n → n ≤ 0x77 →
      idx + (n - 0x60) + 1 ≤ bytes.length →
      Item bytes (idx + (n - 0x60) + 1) k → PairSeq bytes k c j →
      PairSeq bytes idx (c + 1) j
end

/-! Helper lemmas for the decoder's termination behaviour (claim C9). -/

/-- The array element loop neither exhausts fuel nor moves the cursor
backwards, provided the consume function it threads has those properties
at every position from the loop's start onwards. -/
theorem smallArrayLoop_spec (consume : List Nat → Nat → Except JSErr DecodedData)
    (bytes : List Nat) :
    ∀ (count start : Nat) (obj : List JSValue),
      (∀ i, start ≤ i →
        consume bytes i ≠ .error .fuelExhausted ∧
        ∀ r, consume bytes i = .ok r → i < r.nextIndex) →
      smallArrayLoop consume bytes count start obj ≠ .error .fuelExhausted ∧
      ∀ r, smallArrayLoop consume bytes count start obj = .ok r →
        start ≤ r.nextIndex := by
  intro count
  induction count with
  | zero =>
    intro start obj _
    refine ⟨by simp [smallArrayLoop], ?_⟩
    intro r hr
    simp only [smallArrayLoop] at hr
    cases hr
    exact Nat.le_refl _
  | succ c ih =>
    intro start obj hc
    have hstart := hc start (Nat.le_refl _)
    simp only [smallArrayLoop]
    cases hr0 : consume bytes start with
    | error e =>
      refine ⟨?_, by intro r hr; cases hr⟩
      intro h
      cases h
      exact hstart.1 hr0
    | ok r0 =>
      have hadv : start < r0.nextIndex := hstart.2 r0 hr0
      have hc' : ∀ i, r0.nextIndex ≤ i →
          consume bytes i ≠ .error .fuelExhausted ∧
          ∀ r, consume bytes i = .ok r → i < r.nextIndex := by
        intro i hi
        exact hc i (Nat.le_trans (Nat.le_of_lt hadv) hi)
      have hrec := ih r0.nextIndex (r0.decodedItem :: obj) hc'
      refine ⟨hrec.1, ?_⟩
      intro r hr
      exact Nat.le_trans (Nat.le_of_lt hadv) (hrec.2 r hr)

/-- The key of the map pair loop always advances the cursor. -/
theorem consumeTinyUtf8String_nextIndex (bytes : List Nat) (idx : Nat) :
    idx < (consumeTinyUtf8String bytes idx).nextIndex := by
  simp only [consumeTinyUtf8String]
  omega

/-- The map pair loop never exhausts fuel, provided the consume function
it threads never does so at any position from the loop's start onwards. -/
theorem mapObjectLoop_spec (consume : List Nat → Nat → Except JSErr DecodedData)
    (bytes : List Nat) :
    ∀ (count start : Nat) (obj : List (String × JSValue)),
      (∀ i, start ≤ i → consume bytes i ≠ .error .fuelExhausted) →
      mapObjectLoop consume bytes count start obj ≠ .error .fuelExhausted := by
  intro count
  induction count with
  | zero =>
    intro start obj _
    simp [mapObjectLoop]
  | succ c ih =>
    intro start obj hc
    simp only [mapObjectLoop]
    by_cases hkey : isTinyUtf8Type (bytes.getD start 0)
    · simp only [hkey, if_true]
      have hadv := consumeTinyUtf8String_nextIndex bytes start
      cases hv : consume bytes (consumeTinyUtf8String bytes start).nextIndex with
      | error e =>
        intro h
        cases h
        exact hc _ (Nat.le_of_lt hadv) hv
      | ok vr =>
        exact ih _ _ (fun i hi => hc i (Nat.le_trans (Nat.le_of_lt hadv) hi))
    · rw [if_neg hkey]
      simp

set_option maxRecDepth 4096 in
/-- Fuel sufficiency and strict cursor advance for the whole decoder:
with more fuel than bytes remaining at the cursor, the artificial
fuel bound is never hit, and every successful consume moves the cursor
strictly forward. -/
theorem consumeAt_spec (fuel : Nat) :
    ∀ (bytes : List Nat) (idx : Nat), bytes.length - idx < fuel →
      consumeAt fuel bytes idx ≠ Except.error JSErr.fuelExhausted ∧
      ∀ r, consumeAt fuel bytes idx = Except.ok r → idx < r.nextIndex := by
  induction fuel with
  | zero =>
    intro bytes idx h
    exact absurd h (by omega)
  | succ f ih =>
    intro bytes idx h
    have hstep : consumeAt (f + 1) bytes idx
        = consumeStep (fun b i => consumeAt f b i) bytes idx := rfl
    rw [hstep]
    simp only [consumeStep]
    cases hb : bytes.get? idx with
    | none =>
      exact ⟨by simp, by intro r hr; simp at hr⟩
    | some b =>
      have hidx : idx < bytes.length := by
        by_contra hge
        rw [List.get?_eq_none.mpr (Nat.le_of_not_lt hge)] at hb
        cases hb
      cases hm : matchNextItemType b with
      | none =>
        simp only [hm]
        exact ⟨by simp, by intro r hr; simp at hr⟩
      | some kind =>
        cases kind with
        | tinyUnsignedInteger =>
          simp only [hm]
          refine ⟨by simp, ?_⟩
          intro r hr
          simp only [Except.ok.injEq] at hr
          rw [← hr]
          simp only [consumeTinyUnsignedInteger]
          omega
        | tinyUtf8String =>
          simp only [hm]
          refine ⟨by simp, ?_⟩
          intro r hr
          simp only [Except.ok.injEq] at hr
          rw [← hr]
          exact consumeTinyUtf8String_nextIndex bytes idx
        | smallArray =>
          simp only [hm]
          have hc : ∀ i, idx + 1 ≤ i →
              consumeAt f bytes i ≠ Except.error JSErr.fuelExhausted ∧
              ∀ r, consumeAt f bytes i = Except.ok r → i < r.nextIndex := by
            intro i hi
            exact ih bytes i (by omega)
          have hloop := smallArrayLoop_spec (fun b i => consumeAt f b i) bytes
            (bytes.getD idx 0 - 0x80) (idx + 1) [] hc
          simp only [consumeSmallArray]
          exact ⟨hloop.1, fun r hr =>
            Nat.lt_of_lt_of_le (Nat.lt_succ_self idx) (hloop.2 r hr)⟩
        | mapObject =>
          simp only [hm]
          have hc : ∀ i, idx + 1 ≤ i →
              consumeAt f bytes i ≠ Except.error JSErr.fuelExhausted := by
            intro i hi
            exact (ih bytes i (by omega)).1
          have hloop := mapObjectLoop_spec (fun b i => consumeAt f b i) bytes
            (bytes.getD idx 0 - 0xA0) (idx + 1) [] hc
          have hunfold : consumeMapObject (fun b i => consumeAt f b i) bytes idx
              = match mapObjectLoop (fun b i => consumeAt f b i) bytes
                  (bytes.getD idx 0 - 0xA0) (idx + 1) [] with
                | .error e => .error e
                | .ok obj => .ok ⟨idx + 1, .map obj⟩ := rfl
          rw [hunfold]
          cases hm2 : mapObjectLoop (fun b i => consumeAt f b i) bytes
              (bytes.getD idx 0 - 0xA0) (idx + 1) [] with
          | error e =>
            refine ⟨?_, by intro r hr; simp at hr⟩
            intro hcontra
            simp only [Except.error.injEq] at hcontra
            rw [hcontra] at hm2
            exact hloop hm2
          | ok obj =>
            refine ⟨by simp, ?_⟩
            intro r hr
            simp only [Except.ok.injEq] at hr
            rw [← hr]
            show idx < idx + 1
            omega

/-! The claim theorems. -/

/-- C1: the round-trip law fails on the code.  Encoding the one-pair
mapping `{"a": 5}` gives `[0xA1, 0x61, 0x61, 0x05]`, but decoding those
bytes yields the mapping `{"97": 5}` — the key comes back as the decimal
rendering of its byte because `toUtf8` is the `data.join()` placeholder
for the commented-out TextDecoder call — so `decode (encode v) ≠ v`
already for this minimal representable value. -/
theorem c1_roundtrip_fails_on_singleton_map :
    decode (encode [("a", EValue.int 5)]) = .ok (.map [("97", .num 5)]) := rfl

/-- C2: the decode half of the claimed scenario holds
(`decode [0x05] = 5`) and the internal integer emitter produces `[0x05]`
for 5, but the public `encode` cannot be applied to the bare integer 5 at
all: its parameter type is `Map<string, any>`, so `encode` as written in
the source never returns `[0x05]` for the input 5. -/
theorem c2_integer_five_paths :
    decode [0x05] = .ok (.num 5) ∧ emitIntegerBytes 5 = [0x05] :=
  ⟨rfl, rfl⟩

/-- C3: for values outside the representable grammar the encoder signals
nothing.  `emitIntegerBytes` returns the empty byte array for a negative
integer and for 70000, so `encode {"a": -1}` returns the malformed
partial buffer `[0xA1, 0x61, 0x61]` (a one-pair map whose value item is
missing) with no error, and a non-integer number is emitted as the single
byte `[0xFB]`, also silently. -/
theorem c3_out_of_grammar_is_silent :
    emitIntegerBytes (-1) = [] ∧
    emitIntegerBytes 70000 = [] ∧
    encode [("a", EValue.int (-1))] = [0xA1, 0x61, 0x61] ∧
    emitValueBytes EValue.float = some [0xFB] :=
  ⟨rfl, rfl, rfl, rfl⟩

/-- C4: the decoder does not accept the escape-prefix forms the encoder
produces.  The dispatch table maps 0x18, 0x19, 0x78 and 0x79 to no
consumer, while the emitters do produce those prefixes (boundary values
23/24, 255/256 and 65535 shown), so decoding the encoder's own output
`[0x18, 0xC8]` for 200 crashes with a `TypeError` instead of yielding
200. -/
theorem c4_decoder_rejects_escape_forms :
    matchNextItemType 0x18 = none ∧
    matchNextItemType 0x19 = none ∧
    matchNextItemType 0x78 = none ∧
    matchNextItemType 0x79 = none ∧
    emitIntegerBytes 23 = [0x17] ∧
    emitIntegerBytes 24 = [0x18, 0x18] ∧
    emitIntegerBytes 255 = [0x18, 0xFF] ∧
    emitIntegerBytes 256 = [0x19, 0x01, 0x00] ∧
    emitIntegerBytes 65535 = [0x19, 0xFF, 0xFF] ∧
    emitStringTypeBytes (String.mk (List.replicate 24 'a')) = [0x78, 24] ∧
    decode [0x18, 0xC8] = .error .typeError :=
  ⟨rfl, rfl, rfl, rfl, rfl, rfl, rfl, rfl, rfl, rfl, rfl⟩

/-- C5: a mapping pair whose key byte is not in the text range does not
make decoding fail: the pair loop `break`s and the partial (here empty)
map is returned as a SUCCESS value, with no error of any kind reported to
the caller. -/
theorem c5_map_bad_key_returns_partial_value :
    decode [0xA1, 0x00, 0x05] = .ok (.map []) := rfl

/-- C6: a buffer starting with 0xFF matches no consumer, and `decode`
then invokes the `undefined` dispatch result, producing a generic
JavaScript `TypeError` (after only a console message) — not a
distinguishable UnknownTagError value reported to the caller. -/
theorem c6_unknown_leading_byte_crashes :
    matchNextItemType 0xFF = none ∧ decode [0xFF] = .error .typeError :=
  ⟨rfl, rfl⟩

/-- C7: indexed reads are not bounds-checked.  A 3-element array prefix
with one element's bytes crashes with the same generic `TypeError` as an
unknown tag (the out-of-bounds read yields `undefined`, which matches no
consumer and is then invoked) — there is no distinct TruncatedBufferError;
the empty buffer crashes the same way; and a truncated text item is
silently ACCEPTED, returning a clamped garbage string with no error at
all. -/
theorem c7_unchecked_reads_no_truncation_error :
    decode [0x83, 0x01] = .error .typeError ∧
    decode [] = .error .typeError ∧
    decode [0x62, 0x61] = .ok (.str "97") :=
  ⟨rfl, rfl, rfl⟩

/-- C8: the map consumer does not return the position after the mapping's
key and value bytes.  For the well-formed one-pair mapping
`[0xA1, 0x61, 0x61, 0x05]` (which ends at index 4) it returns
`nextIndex = 1`: the source discards the loop cursor and returns
`idx + 1`, and inside the loop the cursor is never advanced past a pair's
value either. -/
theorem c8_map_consumer_cursor_not_advanced :
    consumeAt 5 [0xA1, 0x61, 0x61, 0x05] 0
      = .ok ⟨1, .map [("97", .num 5)]⟩ := rfl

/-- C9: decoding terminates on every input buffer.  In the fuel
embedding this reads: `decode` (which supplies `data.length + 1` fuel)
never hits the artificial fuel bound, and more generally any fuel
exceeding the bytes remaining at the cursor is never exhausted, because
every successful consume strictly advances the cursor — the code's
termination argument. -/
theorem c9_decoding_terminates :
    (∀ data : List Nat, decode data ≠ Except.error JSErr.fuelExhausted) ∧
    (∀ (fuel : Nat) (bytes : List Nat) (idx : Nat), bytes.length - idx < fuel →
      consumeAt fuel bytes idx ≠ Except.error JSErr.fuelExhausted ∧
      ∀ r, consumeAt fuel bytes idx = Except.ok r → idx < r.nextIndex) := by
  refine ⟨?_, consumeAt_spec⟩
  intro data
  have hspec := (consumeAt_spec (data.length + 1) data 0 (by omega)).1
  unfold decode
  cases hc : consumeAt (data.length + 1) data 0 with
  | error e =>
    simp only [hc]
    intro hcontra
    have he : e = JSErr.fuelExhausted := by injection hcontra
    rw [he] at hc
    exact hspec hc
  | ok r =>
    simp only [hc]
    intro hcontra
    cases hcontra

/-- Witness for C9: the termination statement instantiated at the
concrete buffer `[0x05]` with fuel 2. -/
theorem c9_decoding_terminates_witness :
    decode [0x05] ≠ Except.error JSErr.fuelExhausted ∧
    (([0x05] : List Nat).length - 0 < 2 ∧
      consumeAt 2 [0x05] 0 ≠ Except.error JSErr.fuelExhausted ∧
      ∀ r, consumeAt 2 [0x05] 0 = Except.ok r → 0 < r.nextIndex) :=
  ⟨c9_decoding_terminates.1 [0x05],
    by decide,
    (c9_decoding_terminates.2 2 [0x05] 0 (by decide)).1,
    (c9_decoding_terminates.2 2 [0x05] 0 (by decide)).2⟩

/-! Helper lemmas about well-formed items and about reads that stay
inside the original buffer (used for claim C10). -/

/-- A position holding `some` byte is in bounds. -/
theorem lt_length_of_get? {l : List Nat} {i n : Nat} (h : l.get? i = some n) :
    i < l.length := by
  by_contra hge
  rw [List.get?_eq_none.mpr (Nat.le_of_not_lt hge)] at h
  cases h

/-- A well-formed item starts at an in-bounds position. -/
theorem Item.lt_length {bytes : List Nat} {idx j : Nat} (h : Item bytes idx j) :
    idx < bytes.length := by
  cases h with
  | tiny hb _ => exact lt_length_of_get? hb
  | text hb _ _ _ => exact lt_length_of_get? hb
  | arr hb _ _ _ => exact lt_length_of_get? hb
  | map hb _ _ _ => exact lt_length_of_get? hb

/-- Every well-formed item has a first byte. -/
theorem Item.first_byte {bytes : List Nat} {idx j : Nat} (h : Item bytes idx j) :
    ∃ n, bytes.get? idx = some n := by
  cases h with
  | tiny hb _ => exact ⟨_, hb⟩
  | text hb _ _ _ => exact ⟨_, hb⟩
  | arr hb _ _ _ => exact ⟨_, hb⟩
  | map hb _ _ _ => exact ⟨_, hb⟩

/-- Tilings by consecutive items compose. -/
theorem itemSeq_append {bytes : List Nat} :
    ∀ {c₁ p q c₂ r : Nat}, ItemSeq bytes p c₁ q → ItemSeq bytes q c₂ r →
      ItemSeq bytes p (c₁ + c₂) r := by
  intro c₁
  induction c₁ with
  | zero =>
    intro p q c₂ r h1 h2
    cases h1
    simpa using h2
  | succ c ih =>
    intro p q c₂ r h1 h2
    cases h1 with
    | cons hI hrest =>
      have h3 := ih hrest h2
      have harith : c + 1 + c₂ = c + c₂ + 1 := by omega
      rw [harith]
      exact ItemSeq.cons hI h3

/-- A tiling by `c` pairs is a tiling by `2 * c` items (each key is
itself a complete text item). -/
theorem pairSeq_itemSeq {bytes : List Nat} :
    ∀ {c p q : Nat}, PairSeq bytes p c q → ItemSeq bytes p (2 * c) q := by
  intro c
  induction c with
  | zero =>
    intro p q h
    cases h
    exact ItemSeq.nil
  | succ c ih =>
    intro p q h
    cases h with
    | cons hb h60 h77 hend hval hrest =>
      have hkey := Item.text hb h60 h77 hend
      have h2 := ItemSeq.cons hval (ih hrest)
      have h3 := ItemSeq.cons hkey h2
      have harith : 2 * (c + 1) = 2 * c + 1 + 1 := by omega
      rw [harith]
      exact h3

/-- Dispatch inversion: a well-formed item whose first byte is in the
text range is a complete text item ending where the byte says. -/
theorem Item.text_inversion {bytes : List Nat} {idx j n : Nat}
    (h : Item bytes idx j) (hb : bytes.get? idx = some n)
    (h60 : 0x60 ≤ n) (h77 : n ≤ 0x77) :
    j = idx + (n - 0x60) + 1 ∧ idx + (n - 0x60) + 1 ≤ bytes.length := by
  cases h with
  | tiny hb' hn =>
    rw [hb] at hb'
    have := Option.some.inj hb'
    omega
  | text hb' h60' h77' hend =>
    rw [hb] at hb'
    have heq := Option.some.inj hb'
    subst heq
    exact ⟨rfl, hend⟩
  | arr hb' h80 h97 _ =>
    rw [hb] at hb'
    have := Option.some.inj hb'
    omega
  | map hb' hA0 hB7 _ =>
    rw [hb] at hb'
    have := Option.some.inj hb'
    omega

/-- An in-bounds `get?` read is unchanged by appending bytes. -/
theorem get?_append_left {l r : List Nat} {i : Nat} (h : i < l.length) :
    (l ++ r).get? i = l.get? i := by
  rw [List.get?_eq_getElem?, List.get?_eq_getElem?, List.getElem?_append_left h]

/-- An in-bounds `getD` read is unchanged by appending bytes. -/
theorem getD_append_left {l r : List Nat} {i : Nat} (h : i < l.length) :
    (l ++ r).getD i 0 = l.getD i 0 := by
  simp [List.getD, List.getElem?_append_left h]

/-- A drop/take slice that stays inside the original buffer is unchanged
by appending bytes. -/
theorem drop_take_append {l r : List Nat} {s L : Nat} (h : s + L ≤ l.length) :
    ((l ++ r).drop s).take L = (l.drop s).take L := by
  have hdrop : (l ++ r).drop s = l.drop s ++ r := by
    rw [List.drop_append_eq_append_drop]
    have hz : s - l.length = 0 := by omega
    rw [hz, List.drop_zero]
  rw [hdrop, List.take_append_of_le_length]
  rw [List.length_drop]
  omega

/-- The tiny-text range test as an arithmetic statement. -/
theorem isTinyUtf8Type_iff {n : Nat} :
    isTinyUtf8Type n = true ↔ 0x60 ≤ n ∧ n ≤ 0x77 := by
  simp [isTinyUtf8Type]

/-- A complete text item is consumed identically on the extended
buffer: the length byte and the payload slice lie inside the original
bytes. -/
theorem consumeTinyUtf8String_append {bytes rest : List Nat} {i n : Nat}
    (hb : bytes.get? i = some n)
    (hend : i + (n - 0x60) + 1 ≤ bytes.length) :
    consumeTinyUtf8String (bytes ++ rest) i = consumeTinyUtf8String bytes i := by
  have hi : i < bytes.length := lt_length_of_get? hb
  have hD : (bytes ++ rest).getD i 0 = bytes.getD i 0 := getD_append_left hi
  have hb2 : bytes[i]? = some n := by rw [← List.get?_eq_getElem?]; exact hb
  have hDn : bytes.getD i 0 = n := by simp [List.getD, hb2]
  simp only [consumeTinyUtf8String, hD, hDn,
    drop_take_append (show i + 1 + (n - 0x60) ≤ bytes.length by omega)]

/-- An in-bounds `getD` read returns the byte `get?` sees. -/
theorem getD_eq_of_get? {l : List Nat} {i n : Nat} (h : l.get? i = some n) :
    l.getD i 0 = n := by
  have h2 : l[i]? = some n := by
    rw [← List.get?_eq_getElem?]; exact h
  simp [List.getD, h2]

/-- The array element loop on a range tiled by at least `count`
well-formed items: it succeeds, behaves identically on the extended
buffer, never moves the cursor backwards, and leaves the cursor at the
start of a (possibly empty) residual tiling that still reaches `m`.  The
two consume functions abstract the recursive dispatch on the original and
on the extended buffer; `hIH` is the induction hypothesis of the main
theorem for them. -/
theorem smallArrayLoop_wf
    (consume consume₂ : List Nat → Nat → Except JSErr DecodedData)
    (bytes rest : List Nat) (base m : Nat)
    (hIH : ∀ i j2, base ≤ i → Item bytes i j2 →
      ∃ r, consume bytes i = .ok r ∧ consume₂ (bytes ++ rest) i = .ok r ∧
        i < r.nextIndex ∧ ∃ c, ItemSeq bytes r.nextIndex c j2) :
    ∀ (count : Nat), ∀ (start : Nat) (obj : List JSValue) (cc : Nat),
      base ≤ start → count ≤ cc → ItemSeq bytes start cc m →
      ∃ r, smallArrayLoop consume bytes count start obj = .ok r ∧
        smallArrayLoop consume₂ (bytes ++ rest) count start obj = .ok r ∧
        start ≤ r.nextIndex ∧ ∃ c2, ItemSeq bytes r.nextIndex c2 m := by
  intro count
  induction count with
  | zero =>
    intro start obj cc hbase hle hseq
    exact ⟨⟨start, .arr obj.reverse⟩, by simp [smallArrayLoop],
      by simp [smallArrayLoop], Nat.le_refl _, ⟨cc, hseq⟩⟩
  | succ count ih =>
    intro start obj cc hbase hle hseq
    cases hseq with
    | nil => omega
    | cons hI hrest =>
      rename_i k c
      obtain ⟨r₀, h1, h2, hadv, ⟨c₀, hchain₀⟩⟩ := hIH start k hbase hI
      have hjoin : ItemSeq bytes r₀.nextIndex (c₀ + c) m :=
        itemSeq_append hchain₀ hrest
      obtain ⟨r, hl1, hl2, hmono, hres⟩ :=
        ih r₀.nextIndex (r₀.decodedItem :: obj) (c₀ + c)
          (Nat.le_trans hbase (Nat.le_of_lt hadv)) (by omega) hjoin
      refine ⟨r, ?_, ?_, Nat.le_trans (Nat.le_of_lt hadv) hmono, hres⟩
      · simp only [smallArrayLoop, h1]
        exact hl1
      · simp only [smallArrayLoop, h2]
        exact hl2

/-- The map pair loop on a range tiled by at least `2 * count`
well-formed items (the exact-pair tiling of a well-formed mapping
provides them): it succeeds — either working through its pairs along the
lagging cursor or `break`ing on a non-text byte — and behaves identically
on the extended buffer, because every byte it tests, every key slice it
takes and every value it dispatches lies inside the original buffer. -/
theorem mapObjectLoop_wf
    (consume consume₂ : List Nat → Nat → Except JSErr DecodedData)
    (bytes rest : List Nat) (base m : Nat)
    (hIH : ∀ i j2, base ≤ i → Item bytes i j2 →
      ∃ r, consume bytes i = .ok r ∧ consume₂ (bytes ++ rest) i = .ok r ∧
        i < r.nextIndex ∧ ∃ c, ItemSeq bytes r.nextIndex c j2) :
    ∀ (count : Nat), ∀ (start : Nat) (obj : List (String × JSValue)) (cc : Nat),
      base ≤ start → 2 * count ≤ cc → ItemSeq bytes start cc m →
      ∃ out, mapObjectLoop consume bytes count start obj = .ok out ∧
        mapObjectLoop consume₂ (bytes ++ rest) count start obj = .ok out := by
  intro count
  induction count with
  | zero =>
    intro start obj cc hbase hle hseq
    exact ⟨obj, by simp [mapObjectLoop], by simp [mapObjectLoop]⟩
  | succ count ih =>
    intro start obj cc hbase hle hseq
    cases hseq with
    | nil => omega
    | cons hI hrest2 =>
      rename_i k c
      obtain ⟨n, hb⟩ := hI.first_byte
      have hstart : start < bytes.length := hI.lt_length
      have hDn : bytes.getD start 0 = n := by
        have hb2 : bytes[start]? = some n := by
          rw [← List.get?_eq_getElem?]; exact hb
        simp [List.getD, hb2]
      have hD2 : (bytes ++ rest).getD start 0 = n := by
        rw [getD_append_left hstart, hDn]
      by_cases htext : isTinyUtf8Type n
      · -- the byte at the cursor is text-ranged, so the chain's first
        -- item is a complete text item: it is consumed as the pair's key
        have h6077 := isTinyUtf8Type_iff.mp htext
        obtain ⟨hk, hkend⟩ := hI.text_inversion hb h6077.1 h6077.2
        subst hk
        have hkr : (consumeTinyUtf8String bytes start).nextIndex
            = start + (n - 0x60) + 1 := by
          show start + (bytes.getD start 0 - 0x60) + 1 = start + (n - 0x60) + 1
          rw [hDn]
        have hkr₂ : consumeTinyUtf8String (bytes ++ rest) start
            = consumeTinyUtf8String bytes start :=
          consumeTinyUtf8String_append hb hkend
        -- the value item: the residual chain is non-empty
        cases hrest2 with
        | nil => omega
        | cons hval hrest3 =>
          rename_i k2 c2
          obtain ⟨vr, hv1, hv2, _, _⟩ :=
            hIH (start + (n - 0x60) + 1) k2 (by omega) hval
          obtain ⟨out, ho1, ho2⟩ := ih (start + (n - 0x60) + 1)
            (mapSet obj (keyString (consumeTinyUtf8String bytes start).decodedItem)
              vr.decodedItem)
            (c2 + 1) (by omega) (by omega) (ItemSeq.cons hval hrest3)
          refine ⟨out, ?_, ?_⟩
          · simp only [mapObjectLoop]
            rw [hDn, if_pos htext, hkr, hv1]
            exact ho1
          · simp only [mapObjectLoop]
            rw [hD2, if_pos htext, hkr₂, hkr, hv2]
            exact ho2
      · -- non-text byte at the cursor: the source `break`s on both
        -- buffers, returning the pairs collected so far as a success
        refine ⟨obj, ?_, ?_⟩
        · simp only [mapObjectLoop]
          rw [hDn, if_neg htext]
        · simp only [mapObjectLoop]
          rw [hD2, if_neg htext]

set_option maxRecDepth 4096 in
/-- Consuming a well-formed item succeeds, behaves identically on any
extension of the buffer (with any sufficient fuel on either side),
strictly advances the cursor, and leaves the cursor at the start of a
residual item tiling that still reaches the item's end: the decoder's
(lagging) traversal of a well-formed item never reads outside the item
and never fails. -/
theorem consumeAt_wf (fuel : Nat) :
    ∀ (bytes : List Nat) (idx j fuel₂ : Nat) (rest : List Nat),
      Item bytes idx j → bytes.length - idx < fuel →
      bytes.length - idx < fuel₂ →
      ∃ r, consumeAt fuel bytes idx = .ok r ∧
        consumeAt fuel₂ (bytes ++ rest) idx = .ok r ∧
        idx < r.nextIndex ∧ ∃ c, ItemSeq bytes r.nextIndex c j := by
  induction fuel with
  | zero =>
    intro bytes idx j fuel₂ rest hitem hf hf₂
    omega
  | succ f ih =>
    intro bytes idx j fuel₂ rest hitem hf hf₂
    have hidx : idx < bytes.length := hitem.lt_length
    cases fuel₂ with
    | zero => omega
    | succ f₂ =>
      have hstep : consumeAt (f + 1) bytes idx
          = consumeStep (fun b i => consumeAt f b i) bytes idx := rfl
      have hstep₂ : consumeAt (f₂ + 1) (bytes ++ rest) idx
          = consumeStep (fun b i => consumeAt f₂ b i) (bytes ++ rest) idx := rfl
      rw [hstep, hstep₂]
      cases hitem with
      | tiny hb hn =>
        rename_i n
        have hb' : (bytes ++ rest).get? idx = some n := by
          rw [get?_append_left hidx]; exact hb
        have hmatch : matchNextItemType n = some .tinyUnsignedInteger := by
          unfold matchNextItemType
          rw [if_neg (by omega), if_neg (by omega), if_pos (by omega)]
        refine ⟨⟨idx + 1, .num (bytes.getD idx 0)⟩, ?_, ?_,
          Nat.lt_succ_self idx, ⟨0, ItemSeq.nil⟩⟩
        · simp only [consumeStep, hb, hmatch, consumeTinyUnsignedInteger]
        · simp only [consumeStep, hb', hmatch, consumeTinyUnsignedInteger,
            getD_append_left hidx]
      | text hb h60 h77 hend =>
        rename_i n
        have hb' : (bytes ++ rest).get? idx = some n := by
          rw [get?_append_left hidx]; exact hb
        have hmatch : matchNextItemType n = some .tinyUtf8String := by
          unfold matchNextItemType
          rw [if_neg (by omega), if_pos (by omega)]
        have hts : consumeTinyUtf8String (bytes ++ rest) idx
            = consumeTinyUtf8String bytes idx :=
          consumeTinyUtf8String_append hb hend
        refine ⟨consumeTinyUtf8String bytes idx, ?_, ?_,
          consumeTinyUtf8String_nextIndex bytes idx, ⟨0, ?_⟩⟩
        · simp only [consumeStep, hb, hmatch]
        · simp only [consumeStep, hb', hmatch, hts]
        · have hni : (consumeTinyUtf8String bytes idx).nextIndex
              = idx + (n - 0x60) + 1 := by
            show idx + (bytes.getD idx 0 - 0x60) + 1 = idx + (n - 0x60) + 1
            rw [getD_eq_of_get? hb]
          rw [hni]
          exact ItemSeq.nil
      | arr hb h80 h97 hseq =>
        rename_i n
        have hb' : (bytes ++ rest).get? idx = some n := by
          rw [get?_append_left hidx]; exact hb
        have hmatch : matchNextItemType n = some .smallArray := by
          unfold matchNextItemType
          rw [if_neg (by omega), if_neg (by omega), if_neg (by omega),
            if_pos (by omega)]
        have hDn : bytes.getD idx 0 = n := getD_eq_of_get? hb
        have hD2 : (bytes ++ rest).getD idx 0 = n := by
          rw [getD_append_left hidx, hDn]
        have hIH : ∀ i j2, idx + 1 ≤ i → Item bytes i j2 →
            ∃ r, consumeAt f bytes i = .ok r ∧
              consumeAt f₂ (bytes ++ rest) i = .ok r ∧
              i < r.nextIndex ∧ ∃ c, ItemSeq bytes r.nextIndex c j2 := by
          intro i j2 hi hit
          exact ih bytes i j2 f₂ rest hit (by omega) (by omega)
        obtain ⟨r, hl1, hl2, hmono, hres⟩ :=
          smallArrayLoop_wf (fun b i => consumeAt f b i)
            (fun b i => consumeAt f₂ b i) bytes rest (idx + 1) j hIH
            (n - 0x80) (idx + 1) [] (n - 0x80)
            (Nat.le_refl _) (Nat.le_refl _) hseq
        refine ⟨r, ?_, ?_, by omega, hres⟩
        · simp only [consumeStep, hb, hmatch, consumeSmallArray, hDn]
          exact hl1
        · simp only [consumeStep, hb', hmatch, consumeSmallArray, hD2]
          exact hl2
      | map hb hA0 hB7 hpseq =>
        rename_i n
        have hb' : (bytes ++ rest).get? idx = some n := by
          rw [get?_append_left hidx]; exact hb
        have hmatch : matchNextItemType n = some .mapObject := by
          unfold matchNextItemType
          rw [if_pos (by omega)]
        have hDn : bytes.getD idx 0 = n := getD_eq_of_get? hb
        have hD2 : (bytes ++ rest).getD idx 0 = n := by
          rw [getD_append_left hidx, hDn]
        have hIH : ∀ i j2, idx + 1 ≤ i → Item bytes i j2 →
            ∃ r, consumeAt f bytes i = .ok r ∧
              consumeAt f₂ (bytes ++ rest) i = .ok r ∧
              i < r.nextIndex ∧ ∃ c, ItemSeq bytes r.nextIndex c j2 := by
          intro i j2 hi hit
          exact ih bytes i j2 f₂ rest hit (by omega) (by omega)
        have hflat := pairSeq_itemSeq hpseq
        obtain ⟨out, ho1, ho2⟩ :=
          mapObjectLoop_wf (fun b i => consumeAt f b i)
            (fun b i => consumeAt f₂ b i) bytes rest (idx + 1) j hIH
            (n - 0xA0) (idx + 1) [] (2 * (n - 0xA0))
            (Nat.le_refl _) (Nat.le_refl _) hflat
        refine ⟨⟨idx + 1, .map out⟩, ?_, ?_, Nat.lt_succ_self idx,
          ⟨2 * (n - 0xA0), hflat⟩⟩
        · simp only [consumeStep, hb, hmatch]
          have hunfold : consumeMapObject (fun b i => consumeAt f b i) bytes idx
              = match mapObjectLoop (fun b i => consumeAt f b i) bytes
                  (bytes.getD idx 0 - 0xA0) (idx + 1) [] with
                | .error e => .error e
                | .ok obj => .ok ⟨idx + 1, .map obj⟩ := rfl
          rw [hunfold, hDn, ho1]
        · simp only [consumeStep, hb', hmatch]
          have hunfold : consumeMapObject (fun b i => consumeAt f₂ b i)
                (bytes ++ rest) idx
              = match mapObjectLoop (fun b i => consumeAt f₂ b i) (bytes ++ rest)
                  ((bytes ++ rest).getD idx 0 - 0xA0) (idx + 1) [] with
                | .error e => .error e
                | .ok obj => .ok ⟨idx + 1, .map obj⟩ := rfl
          rw [hunfold, hD2, ho2]

/-- C10: `decode` consumes only the single item that starts at index 0
and never compares the consumed extent with the buffer length: for EVERY
buffer whose first item is well-formed (`Item bytes 0 j` — any inline
integer, complete text, sequence or mapping of the decoder's grammar),
decoding succeeds, and appending arbitrary trailing bytes is silently
ignored: the extended buffer decodes to the very same value, with no
error signalled. -/
theorem c10_decode_ignores_trailing_bytes :
    ∀ (bytes rest : List Nat) (j : Nat), Item bytes 0 j →
      ∃ v, decode bytes = .ok v ∧ decode (bytes ++ rest) = .ok v := by
  intro bytes rest j hitem
  obtain ⟨r, h1, h2, _, _⟩ :=
    consumeAt_wf (bytes.length + 1) bytes 0 j ((bytes ++ rest).length + 1) rest
      hitem (by omega) (by simp [List.length_append]; omega)
  refine ⟨r.decodedItem, ?_, ?_⟩
  · unfold decode
    rw [h1]
  · unfold decode
    rw [h2]

/-- Witness for C10 at concrete inputs: the claim's own example
`decode [0x05, 0xFF]` (trailing garbage after a well-formed integer) and
trailing garbage after a well-formed one-pair mapping, both discharged by
explicit well-formedness derivations. -/
theorem c10_decode_ignores_trailing_bytes_witness :
    (∃ v, decode [0x05] = .ok v ∧ decode ([0x05] ++ [0xFF]) = .ok v) ∧
    (∃ v, decode [0xA1, 0x61, 0x61, 0x05] = .ok v ∧
      decode ([0xA1, 0x61, 0x61, 0x05] ++ [0xFF, 0xFF]) = .ok v) :=
  ⟨c10_decode_ignores_trailing_bytes [0x05] [0xFF] 1
      (Item.tiny rfl (by decide)),
    c10_decode_ignores_trailing_bytes [0xA1, 0x61, 0x61, 0x05] [0xFF, 0xFF] 4
      (Item.map rfl (by decide) (by decide)
        (PairSeq.cons rfl (by decide) (by decide) (by decide)
          (Item.tiny rfl (by decide)) PairSeq.nil))⟩

end CBOR
